import Mathlib

/-!
Verification of the CarLink CLI parameter-tree component (`CLI.h` / `CLI.cpp`).

The development shallowly embeds the tree-parameter completer/validator
produced by `makeTreeParamMap`, the longest-common-prefix reduction of
`CLI::commandCompletion`, the command registry of `CLI::registerCommand`,
and the cancel-monitoring loop of `CLI::invokeCommand`.

Strings are modelled as Lean `String` (no embedded NUL bytes), `long` as
`Int` together with the explicit bounds `[-2^63, 2^63 - 1]`, and
`std::map` as an association list with unique keys (lookup is first
match; `mapInsert` overwrites in place).
-/

set_option autoImplicit false

namespace CarlinkCLI

/-- Numeric constraint of a `ParamNode` (`ParamNode::NumericConstraint`). -/
structure NumericConstraint where
  enabled : Bool
  minValue : Int
  maxValue : Int
deriving Repr, DecidableEq

/-- A node of the parameter dependency tree (`struct ParamNode`).
`children` models the `std::map<std::string, ParamNode>` as an
association list. -/
inductive ParamNode where
  | mk (candidates : List String) (children : List (String × ParamNode))
       (numeric : NumericConstraint)

def ParamNode.candidates : ParamNode → List String
  | .mk c _ _ => c

def ParamNode.children : ParamNode → List (String × ParamNode)
  | .mk _ ch _ => ch

def ParamNode.numeric : ParamNode → NumericConstraint
  | .mk _ _ n => n

/-- First-match association-list lookup, modelling `std::map::find`. -/
def lookupChild : List (String × ParamNode) → String → Option ParamNode
  | [], _ => none
  | (k, v) :: rest, key => if k = key then some v else lookupChild rest key

/-- Comma-joining loop used for the error messages
(`validValues`, `currentOptions`, `nextOptions` in the validator). -/
def joinComma (xs : List String) : String :=
  xs.foldl (fun acc v => if acc = "" then v else acc ++ ", " ++ v) ""

/-- `LONG_MIN` on an LP64 platform. -/
def longMin : Int := -(2 ^ 63)

/-- `LONG_MAX` on an LP64 platform. -/
def longMax : Int := 2 ^ 63 - 1

/-- Character class accepted by `isspace` in the C locale,
which `strtol` skips at the start of the subject sequence. -/
def isSpaceC (c : Char) : Bool :=
  c = ' ' || c = '\t' || c = '\n' || c = '\x0b' || c = '\x0c' || c = '\r'

/-- The optional sign consumed by `strtol` after the whitespace. -/
def splitSign : List Char → Int × List Char
  | [] => (1, [])
  | c :: rest =>
    if c = '-' then (-1, rest)
    else if c = '+' then (1, rest)
    else (1, c :: rest)

/-- Value of a digit string, most significant digit first. -/
def digitsVal (l : List Char) : Nat :=
  l.foldl (fun acc c => acc * 10 + (c.toNat - '0'.toNat)) 0

/-- The validator's `parseLong` helper: `strtol(value.c_str(), &end, 10)`
followed by the checks `errno == 0`, `end != value.c_str()` and
`*end == '\0'`.  `strtol` skips leading C-locale whitespace, consumes an
optional sign and then a maximal digit run; success requires at least one
digit, no trailing characters after the digits, and a value inside the
representable `long` range (otherwise `errno = ERANGE`). -/
def parseLong (value : String) : Option Int :=
  if value.data = [] then none
  else
    let body := value.data.dropWhile isSpaceC
    let signed := splitSign body
    let digits := signed.2.takeWhile Char.isDigit
    if digits = [] then none
    else if signed.2.dropWhile Char.isDigit ≠ [] then none
    else
      let n : Int := signed.1 * (digitsVal digits : Int)
      if n < longMin ∨ longMax < n then none
      else some n

/-- Outcome of the validator's argument scan: either an early-returned
error message, or normal loop exit with the final `current` node and the
final value of the `lastValueIsLeaf` flag. -/
inductive ScanResult where
  | error (msg : String)
  | done (node : ParamNode) (lastLeaf : Bool)

/-- The numeric check in the validator's empty-candidates branch:
`none` means the check passed, `some msg` the early-returned error. -/
def numericCheck (current : ParamNode) (i : Nat) (value : String) : Option String :=
  match parseLong value with
  | none => some ("Invalid number '" ++ value ++ "' at position " ++ toString i)
  | some parsed =>
    if parsed < current.numeric.minValue ∨ current.numeric.maxValue < parsed then
      some ("Number out of range at position " ++ toString i ++
            ". Expected: " ++ toString current.numeric.minValue ++
            " to " ++ toString current.numeric.maxValue)
    else none

/-- The validator's `for (size_t i = 1; i < args.size(); ++i)` loop over
the argument tokens.  `i` is the position of the head of the remaining
token list inside the full argument vector. -/
def scanArgs : ParamNode → Nat → List String → ScanResult
  | current, _, [] => .done current false
  | current, i, value :: rest =>
    if current.candidates.isEmpty then
      match (if current.numeric.enabled then numericCheck current i value else none) with
      | some msg => .error msg
      | none =>
        match lookupChild current.children value with
        | some child => scanArgs child (i + 1) rest
        | none =>
          -- `lastValueIsLeaf = true; continue;` — the loop keeps
          -- scanning against the same node.
          match rest with
          | [] => .done current true
          | _ :: _ => scanArgs current (i + 1) rest
    else
      if value ∈ current.candidates then
        match lookupChild current.children value with
        | some child => scanArgs child (i + 1) rest
        | none =>
          match rest with
          | [] => .done current true
          | _ :: _ => .error ("Too many arguments after '" ++ value ++ "'")
      else
        .error ("Invalid value '" ++ value ++ "' at position " ++ toString i ++
                ". Valid values: " ++ joinComma current.candidates)

/-- The validator lambda of `makeTreeParamMap`: `args[0]` is the command
name, the scan runs over `args[1..]`, and the post-scan check reports a
missing argument from `candidates` or the `children` keys. -/
def validate (root : ParamNode) (args : List String) : String :=
  if args.length < 2 then "Missing arguments"
  else
    match scanArgs root 1 (args.drop 1) with
    | .error msg => msg
    | .done current lastLeaf =>
      if lastLeaf then ""
      else if !current.candidates.isEmpty then
        "Missing argument. Expected one of: " ++ joinComma current.candidates
      else if !current.children.isEmpty then
        "Missing argument. Expected: " ++ joinComma (current.children.map Prod.fst)
      else ""

/-- The tree of the spec's scenario: `light` child of `device1` with
candidates `0,1,2`. -/
def lightNode : ParamNode := .mk ["0", "1", "2"] [] ⟨false, 0, 0⟩

/-- The scenario's `device1` node with candidates `light, sound`. -/
def device1Node : ParamNode := .mk ["light", "sound"] [("light", lightNode)] ⟨false, 0, 0⟩

/-- The scenario's numeric `timeout` node with range `[1, 600]`. -/
def timeoutNode : ParamNode := .mk [] [] ⟨true, 1, 600⟩

/-- The root of the spec's scenario tree. -/
def exTree : ParamNode :=
  .mk ["device1", "timeout"]
      [("device1", device1Node), ("timeout", timeoutNode)] ⟨false, 0, 0⟩

/-- C1: on the scenario tree, `validate` produces exactly the three
documented results: the invalid-value message at position 3, the
out-of-range message at position 2, and acceptance of `45`. -/
theorem validate_scenario :
    validate exTree ["set", "device1", "light", "9"] =
      "Invalid value '9' at position 3. Valid values: 0, 1, 2" ∧
    validate exTree ["set", "timeout", "700"] =
      "Number out of range at position 2. Expected: 1 to 600" ∧
    validate exTree ["set", "timeout", "45"] = "" := by
  refine ⟨?_, ?_, ?_⟩ <;> rfl

/-- The completer's tree walk, `for (int i = 1; i < paramIndex; ++i)`:
one step per loop iteration, consuming one token of `allTokens[1..]`.
Running out of tokens (`i >= allTokens.size()`) or failing the
`children.find(token)` lookup returns "no node". -/
def completeWalk : ParamNode → List String → Nat → Option ParamNode
  | current, _, 0 => some current
  | current, tokens, steps + 1 =>
    match tokens with
    | [] => none
    | t :: rest =>
      match lookupChild current.children t with
      | none => none
      | some child => completeWalk child rest steps

/-- The completer lambda of `makeTreeParamMap`: reject `paramIndex < 1`,
walk the tree along `allTokens[1..paramIndex-1]`, then keep the
candidates with `candidate.find(input) == 0`, i.e. those starting with
`input`. -/
def complete (root : ParamNode) (allTokens : List String) (paramIndex : Int)
    (input : String) : List String :=
  if paramIndex < 1 then []
  else
    match completeWalk root (allTokens.drop 1) (paramIndex - 1).toNat with
    | none => []
    | some node => node.candidates.filter (fun c => c.startsWith input)

/-- C5: when the walk along the earlier tokens diverges (a token fails
the exact `children` lookup, or lies past the end of `allTokens`), the
completer returns the empty list. -/
theorem complete_diverged (root : ParamNode) (allTokens : List String)
    (paramIndex : Int) (input : String) (h1 : 1 ≤ paramIndex)
    (h2 : completeWalk root (allTokens.drop 1) (paramIndex - 1).toNat = none) :
    complete root allTokens paramIndex input = [] := by
  unfold complete
  rw [if_neg (by omega), h2]

/-- Witness for `complete_diverged`: the token `bogus` matches no child
of the scenario root, so completion at position 3 is empty. -/
theorem complete_diverged_witness :
    complete exTree ["set", "bogus", "x"] 3 "" = [] :=
  complete_diverged exTree ["set", "bogus", "x"] 3 "" (by decide) (by rfl)

/-- C6: completion returns the empty list for `paramIndex < 1`; every
returned string starts with the current input; and whenever the walk
reaches a node, the result is a sublist of that node's candidates (so
order is the declaration order and every result is a candidate). -/
theorem complete_props (root : ParamNode) (allTokens : List String)
    (paramIndex : Int) (input : String) :
    (paramIndex < 1 → complete root allTokens paramIndex input = []) ∧
    (∀ s ∈ complete root allTokens paramIndex input, s.startsWith input = true) ∧
    (∀ node, completeWalk root (allTokens.drop 1) (paramIndex - 1).toNat = some node →
      (complete root allTokens paramIndex input).Sublist node.candidates) := by
  refine ⟨fun h => by simp [complete, h], ?_, ?_⟩
  · intro s hs
    unfold complete at hs
    split at hs
    · simp at hs
    · split at hs
      · simp at hs
      · exact (List.mem_filter.mp hs).2
  · intro node hnode
    by_cases h : paramIndex < 1
    · simp [complete, h]
    · simp only [complete, if_neg h, hnode]
      exact List.filter_sublist _

/-- Witness for `complete_props`: completing `l` after `set device1`
yields a sublist of the `device1` node's candidates. -/
theorem complete_props_witness :
    (complete exTree ["set", "device1"] 2 "l").Sublist device1Node.candidates :=
  (complete_props exTree ["set", "device1"] 2 "l").2.2 device1Node (by rfl)

/-- Counterexample to C2 as stated: after the numeric value `45` at the
numeric `timeout` node (a leaf: no children), scanning does NOT stop —
the next argument `abc` is still checked against the same numeric node
and produces an error at position 3. -/
theorem numeric_leaf_scan_continues_cex :
    validate exTree ["set", "timeout", "45", "abc"] =
      "Invalid number 'abc' at position 3" := by
  rfl

/-- C2 amended: at a numeric node, once the argument passes the numeric
check, the validator descends into an exact-literal child when one
exists; otherwise the argument is marked a leaf and the scan CONTINUES
with the same node — it ends on the leaf only when the argument was the
last one. -/
theorem numeric_step (current : ParamNode) (i : Nat) (value : String)
    (rest : List String)
    (hc : current.candidates = [])
    (hen : current.numeric.enabled = true)
    (hnum : numericCheck current i value = none) :
    scanArgs current i (value :: rest) =
      match lookupChild current.children value with
      | some child => scanArgs child (i + 1) rest
      | none =>
        match rest with
        | [] => ScanResult.done current true
        | _ :: _ => scanArgs current (i + 1) rest := by
  simp [scanArgs, hc, hen, hnum]

/-- Witness for `numeric_step`: at the `timeout` node, `45` passes the
numeric check, has no child entry, and with one more argument left the
scan continues against the same node. -/
theorem numeric_step_witness :
    scanArgs timeoutNode 2 ["45", "99"] = scanArgs timeoutNode 3 ["99"] :=
  numeric_step timeoutNode 2 "45" ["99"] rfl rfl (by rfl)

/-- C4: a token list with fewer than 2 entries fails with
`Missing arguments`; and when the scan consumes every argument without
ending on a leaf, the result is the missing-argument message built from
the final node's candidates, else its child keys, else acceptance. -/
theorem validate_missing_spec (root : ParamNode) (args : List String) :
    (args.length < 2 → validate root args = "Missing arguments") ∧
    (∀ node, 2 ≤ args.length →
      scanArgs root 1 (args.drop 1) = .done node false →
      validate root args =
        if !node.candidates.isEmpty then
          "Missing argument. Expected one of: " ++ joinComma node.candidates
        else if !node.children.isEmpty then
          "Missing argument. Expected: " ++ joinComma (node.children.map Prod.fst)
        else "") := by
  constructor
  · intro h
    simp [validate, h]
  · intro node hlen hscan
    unfold validate
    rw [if_neg (by omega), hscan]
    rfl

/-- Witness for `validate_missing_spec`: a bare `set` is missing all
arguments, and `set device1` stops at the `device1` node whose
candidates are reported. -/
theorem validate_missing_spec_witness :
    validate exTree ["set"] = "Missing arguments" ∧
    validate exTree ["set", "device1"] =
      "Missing argument. Expected one of: light, sound" := by
  constructor
  · exact (validate_missing_spec exTree ["set"]).1 (by decide)
  · exact (validate_missing_spec exTree ["set", "device1"]).2 device1Node
      (by decide) (by rfl)

/-- C9: when the scan ends (not on a leaf) at a node with no candidates
and no children, `validate` accepts even though the node carries an
enabled numeric constraint — the post-scan check never inspects
`numeric`, so a missing numeric argument is not reported. -/
theorem numeric_missing_arg_passes (root : ParamNode) (args : List String)
    (node : ParamNode)
    (hlen : 2 ≤ args.length)
    (hscan : scanArgs root 1 (args.drop 1) = .done node false)
    (hcand : node.candidates = [])
    (hch : node.children = [])
    (_hen : node.numeric.enabled = true) :
    validate root args = "" := by
  unfold validate
  rw [if_neg (by omega), hscan]
  simp [hcand, hch]

/-- Witness for `numeric_missing_arg_passes`: `set timeout` descends
into the numeric `timeout` node with no value supplied, yet validation
passes. -/
theorem numeric_missing_arg_passes_witness :
    validate exTree ["set", "timeout"] = "" :=
  numeric_missing_arg_passes exTree ["set", "timeout"] timeoutNode
    (by decide) (by rfl) rfl rfl rfl

/-- Every list of the form `l1 ++ digits` with `digits` a non-empty run
of digit characters ends in a digit. -/
theorem last_digit_of_run (l1 digits : List Char) (hd : digits ≠ [])
    (hall : ∀ c ∈ digits, c.isDigit = true) :
    ((l1 ++ digits).getLastD ' ').isDigit = true := by
  rw [List.getLastD_eq_getLast?, List.getLast?_append]
  cases hl : digits.getLast? with
  | none => exact absurd (List.getLast?_eq_none_iff.mp hl) hd
  | some d =>
    simp only [Option.or_some, Option.getD_some]
    exact hall d (List.mem_of_getLast?_eq_some hl)

/-- `splitSign` only ever removes a leading sign character. -/
theorem splitSign_dropped (l : List Char) : ∃ pre, l = pre ++ (splitSign l).2 := by
  cases l with
  | nil => exact ⟨[], rfl⟩
  | cons c rest =>
    by_cases hm : c = '-'
    · exact ⟨[c], by simp [splitSign, hm]⟩
    · by_cases hp : c = '+'
      · exact ⟨[c], by simp [splitSign, hm, hp]⟩
      · exact ⟨[], by simp [splitSign, hm, hp]⟩

/-- Counterexample to C3 as stated: `strtol` skips leading C-locale
whitespace, so the token `" 45"` (leading space) is accepted by the
validator's numeric parse rather than rejected. -/
theorem parseLong_leading_space_cex : parseLong " 45" = some 45 := by rfl

/-- C3 amended: any token the numeric parse accepts is non-empty, ends
in a digit (so tokens with trailing non-digit characters — including
trailing whitespace — are rejected, as are empty tokens), and its value
lies in the representable `long` range (overflow is a parse failure).
Leading whitespace, however, is skipped and accepted. -/
theorem parseLong_shape (s : String) (n : Int) (h : parseLong s = some n) :
    s.data ≠ [] ∧ (s.data.getLastD ' ').isDigit = true ∧
    longMin ≤ n ∧ n ≤ longMax := by
  simp only [parseLong] at h
  split at h
  · exact absurd h (by simp)
  next hne =>
  split at h
  · exact absurd h (by simp)
  next hdig =>
  split at h
  · exact absurd h (by simp)
  next hrest =>
  split at h
  · exact absurd h (by simp)
  next hrange =>
  refine ⟨hne, ?_, ?_, ?_⟩
  · -- the accepted token is whitespace, then an optional sign, then a
    -- non-empty digit run reaching the end of the string
    rw [not_not] at hrest
    obtain ⟨pre, hpre⟩ := splitSign_dropped (s.data.dropWhile isSpaceC)
    have hsplit : (splitSign (s.data.dropWhile isSpaceC)).2 =
        (splitSign (s.data.dropWhile isSpaceC)).2.takeWhile Char.isDigit := by
      conv_lhs => rw [← List.takeWhile_append_dropWhile (p := Char.isDigit)
        (l := (splitSign (s.data.dropWhile isSpaceC)).2)]
      rw [hrest, List.append_nil]
    have hs : s.data = (s.data.takeWhile isSpaceC ++ pre) ++
        (splitSign (s.data.dropWhile isSpaceC)).2.takeWhile Char.isDigit := by
      rw [← hsplit, List.append_assoc, ← hpre, List.takeWhile_append_dropWhile]
    rw [hs]
    exact last_digit_of_run _ _ hdig (fun c hc => List.mem_takeWhile_imp hc)
  · have := Option.some.inj h
    rw [not_or] at hrange
    omega
  · have := Option.some.inj h
    rw [not_or] at hrange
    omega

/-- Witness for `parseLong_shape`: the accepted token `45` is non-empty,
ends in a digit, and its value is in range. -/
theorem parseLong_shape_witness :
    ("45" : String).data ≠ [] ∧
    (("45" : String).data.getLastD ' ').isDigit = true ∧
    longMin ≤ 45 ∧ (45 : Int) ≤ longMax :=
  parseLong_shape "45" 45 (by rfl)

/-- `Starts p l`: `p` is a leading segment of the character list `l`. -/
def Starts (p l : List Char) : Prop := ∃ t, p ++ t = l

theorem starts_refl (l : List Char) : Starts l l := ⟨[], List.append_nil l⟩

theorem starts_trans {p q l : List Char} (h1 : Starts p q) (h2 : Starts q l) :
    Starts p l := by
  obtain ⟨t1, rfl⟩ := h1
  obtain ⟨t2, rfl⟩ := h2
  exact ⟨t1 ++ t2, (List.append_assoc p t1 t2).symm⟩

theorem starts_length {p l : List Char} (h : Starts p l) : p.length ≤ l.length := by
  obtain ⟨t, rfl⟩ := h
  simp

/-- The inner loop of `CLI::commandCompletion`:
`while (j < prefix.length() && j < candidates[i].length() && prefix[j] == candidates[i][j]) j++;`
followed by `prefix = prefix.substr(0, j)`, on character lists. -/
def commonPrefixChars : List Char → List Char → List Char
  | [], _ => []
  | _ :: _, [] => []
  | a :: as, b :: bs => if a = b then a :: commonPrefixChars as bs else []

theorem cpc_starts_left : ∀ a b : List Char, Starts (commonPrefixChars a b) a
  | [], _ => ⟨[], rfl⟩
  | a :: as, [] => ⟨a :: as, rfl⟩
  | a :: as, b :: bs => by
    by_cases h : a = b
    · obtain ⟨t, ht⟩ := cpc_starts_left as bs
      exact ⟨t, by simp [commonPrefixChars, h, ht]⟩
    · exact ⟨a :: as, by simp [commonPrefixChars, h]⟩

theorem cpc_starts_right : ∀ a b : List Char, Starts (commonPrefixChars a b) b
  | [], b => ⟨b, rfl⟩
  | _ :: _, [] => ⟨[], rfl⟩
  | a :: as, b :: bs => by
    by_cases h : a = b
    · obtain ⟨t, ht⟩ := cpc_starts_right as bs
      exact ⟨t, by simp [commonPrefixChars, h, ht]⟩
    · exact ⟨b :: bs, by simp [commonPrefixChars, h]⟩

theorem cpc_greatest : ∀ (p a b : List Char), Starts p a → Starts p b →
    Starts p (commonPrefixChars a b)
  | [], a, b, _, _ => ⟨commonPrefixChars a b, rfl⟩
  | c :: p', a, b, ha, hb => by
    obtain ⟨t1, rfl⟩ := ha
    obtain ⟨t2, rfl⟩ := hb
    have := cpc_greatest p' (p' ++ t1) (p' ++ t2) ⟨t1, rfl⟩ ⟨t2, rfl⟩
    obtain ⟨t, ht⟩ := this
    exact ⟨t, by simp [commonPrefixChars, ht]⟩

/-- Invariant of the `for (size_t i = 1; ...)` reduction loop: the fold
result is a common leading segment of the accumulator and all list
elements, and every common leading segment is a leading segment of it. -/
theorem lcp_fold (l : List (List Char)) : ∀ acc : List Char,
    Starts (l.foldl commonPrefixChars acc) acc ∧
    (∀ x ∈ l, Starts (l.foldl commonPrefixChars acc) x) ∧
    (∀ p, Starts p acc → (∀ x ∈ l, Starts p x) →
      Starts p (l.foldl commonPrefixChars acc)) := by
  induction l with
  | nil =>
    intro acc
    exact ⟨starts_refl acc, by simp, fun p hp _ => hp⟩
  | cons x xs ih =>
    intro acc
    obtain ⟨ih1, ih2, ih3⟩ := ih (commonPrefixChars acc x)
    simp only [List.foldl_cons]
    refine ⟨starts_trans ih1 (cpc_starts_left acc x), ?_, ?_⟩
    · intro y hy
      rcases List.mem_cons.mp hy with h | h
      · subst h
        exact starts_trans ih1 (cpc_starts_right acc y)
      · exact ih2 y h
    · intro p hacc hall
      refine ih3 p (cpc_greatest p acc x hacc (hall x (List.mem_cons_self x xs))) ?_
      intro y hy
      exact hall y (List.mem_cons_of_mem x hy)

/-- String version of the character loop (`prefix` is a `std::string`). -/
def commonPrefixStr (a b : String) : String := ⟨commonPrefixChars a.data b.data⟩

/-- The longest-common-prefix reduction of `CLI::commandCompletion`:
`prefix = candidates[0]`, then progressively shortened against each
later candidate (for a single candidate the loop body never runs). -/
def lcpReduce : List String → String
  | [] => ""
  | c :: rest => rest.foldl commonPrefixStr c

theorem string_length_data (s : String) : s.length = s.data.length := rfl

theorem lcpReduce_data (c : String) (rest : List String) :
    (rest.foldl commonPrefixStr c).data =
      (rest.map String.data).foldl commonPrefixChars c.data := by
  induction rest generalizing c with
  | nil => rfl
  | cons x xs ih =>
    simp only [List.foldl_cons, List.map_cons]
    exact ih (commonPrefixStr c x)

/-- C7: on any non-empty candidate list, the reduced prefix is a leading
segment of every candidate, and no common leading segment is longer. -/
theorem lcp_spec (cs : List String) (hne : cs ≠ []) :
    (∀ c ∈ cs, Starts (lcpReduce cs).data c.data) ∧
    (∀ p : String, (∀ c ∈ cs, Starts p.data c.data) →
      p.length ≤ (lcpReduce cs).length) := by
  obtain ⟨c, rest, rfl⟩ : ∃ c rest, cs = c :: rest := by
    cases cs with
    | nil => exact absurd rfl hne
    | cons c rest => exact ⟨c, rest, rfl⟩
  have hdata : (lcpReduce (c :: rest)).data =
      (rest.map String.data).foldl commonPrefixChars c.data := lcpReduce_data c rest
  obtain ⟨hf1, hf2, hf3⟩ := lcp_fold (rest.map String.data) c.data
  constructor
  · intro y hy
    rw [hdata]
    rcases List.mem_cons.mp hy with h | h
    · subst h
      exact hf1
    · exact hf2 y.data (List.mem_map_of_mem String.data h)
  · intro p hp
    have hstarts : Starts p.data
        ((rest.map String.data).foldl commonPrefixChars c.data) := by
      refine hf3 p.data (hp c (List.mem_cons_self c rest)) ?_
      intro x hx
      obtain ⟨y, hy, rfl⟩ := List.mem_map.mp hx
      exact hp y (List.mem_cons_of_mem c hy)
    have hlen := starts_length hstarts
    rw [string_length_data p, string_length_data, hdata]
    exact hlen

/-- Witness for `lcp_spec`: the reduction over `abc, abd` is a leading
segment of `abc`. -/
theorem lcp_spec_witness :
    Starts (lcpReduce ["abc", "abd"]).data ("abc" : String).data :=
  (lcp_spec ["abc", "abd"] (by simp)).1 "abc" (by simp)

/-- A registry entry (`CLI::CommandInfo`).  Handler, completer and
validator are `std::function` values, modelled as abstract types; a
null `std::function` is `none`. -/
structure CommandInfo (H C V : Type) where
  description : String
  handler : H
  completer : Option C
  validator : Option V

/-- `std::map::operator[]` followed by assignment: overwrite the entry
in place when the key exists, otherwise add a new entry. -/
def mapInsert {α : Type} : List (String × α) → String → α → List (String × α)
  | [], k, v => [(k, v)]
  | (k', v') :: rest, k, v =>
    if k' = k then (k, v) :: rest else (k', v') :: mapInsert rest k v

/-- `std::map::find` on the registry. -/
def mapLookup {α : Type} : List (String × α) → String → Option α
  | [], _ => none
  | (k', v) :: rest, k => if k' = k then some v else mapLookup rest k

/-- `CLI::registerCommand`: build a `CommandInfo` and store it with
`commands_[name] = info`. -/
def registerCommand {H C V : Type} (commands : List (String × CommandInfo H C V))
    (name description : String) (handler : H)
    (completer : Option C) (validator : Option V) :
    List (String × CommandInfo H C V) :=
  mapInsert commands name ⟨description, handler, completer, validator⟩

theorem mapInsert_lookup_self {α : Type} (m : List (String × α)) (k : String)
    (v : α) : mapLookup (mapInsert m k v) k = some v := by
  induction m with
  | nil => simp [mapInsert, mapLookup]
  | cons p rest ih =>
    obtain ⟨a, b⟩ := p
    by_cases ha : a = k
    · simp [mapInsert, ha, mapLookup]
    · simp [mapInsert, ha, mapLookup, ih]

theorem mapInsert_lookup_other {α : Type} (m : List (String × α)) (k k' : String)
    (v : α) (h : k' ≠ k) : mapLookup (mapInsert m k v) k' = mapLookup m k' := by
  induction m with
  | nil => simp [mapInsert, mapLookup, Ne.symm h]
  | cons p rest ih =>
    obtain ⟨a, b⟩ := p
    by_cases ha : a = k
    · subst ha
      simp [mapInsert, mapLookup, Ne.symm h]
    · simp [mapInsert, ha, mapLookup, ih]

theorem mem_mapInsert_keys {α : Type} (m : List (String × α)) (k : String)
    (v : α) (x : String) (hx : x ∈ (mapInsert m k v).map Prod.fst) :
    x = k ∨ x ∈ m.map Prod.fst := by
  induction m with
  | nil =>
    simp only [mapInsert, List.map_cons, List.map_nil, List.mem_cons,
      List.not_mem_nil, or_false] at hx
    exact Or.inl hx
  | cons p rest ih =>
    obtain ⟨a, b⟩ := p
    by_cases ha : a = k
    · rw [show mapInsert ((a, b) :: rest) k v = (k, v) :: rest from by
        simp [mapInsert, ha]] at hx
      simp only [List.map_cons, List.mem_cons] at hx
      rcases hx with h | h
      · exact Or.inl h
      · exact Or.inr (by simp [h])
    · rw [show mapInsert ((a, b) :: rest) k v = (a, b) :: mapInsert rest k v from by
        simp [mapInsert, ha]] at hx
      simp only [List.map_cons, List.mem_cons] at hx
      rcases hx with h | h
      · exact Or.inr (by simp [h])
      · rcases ih h with h' | h'
        · exact Or.inl h'
        · exact Or.inr (by simp [h'])

theorem mapInsert_keys_nodup {α : Type} (m : List (String × α)) (k : String)
    (v : α) (h : (m.map Prod.fst).Nodup) :
    ((mapInsert m k v).map Prod.fst).Nodup := by
  induction m with
  | nil => simp [mapInsert]
  | cons p rest ih =>
    obtain ⟨a, b⟩ := p
    simp only [List.map_cons, List.nodup_cons] at h
    by_cases ha : a = k
    · subst ha
      simpa [mapInsert] using h
    · have hnotin : a ∉ (mapInsert rest k v).map Prod.fst := by
        intro hmem
        rcases mem_mapInsert_keys rest k v a hmem with h' | h'
        · exact ha h'
        · exact h.1 h'
      simp only [mapInsert, if_neg ha, List.map_cons, List.nodup_cons]
      exact ⟨hnotin, ih h.2⟩

theorem mapInsert_count {α : Type} (m : List (String × α)) (k : String) (v : α)
    (h : (m.map Prod.fst).Nodup) :
    ((mapInsert m k v).map Prod.fst).count k = 1 := by
  induction m with
  | nil => simp [mapInsert]
  | cons p rest ih =>
    obtain ⟨a, b⟩ := p
    simp only [List.map_cons, List.nodup_cons] at h
    by_cases ha : a = k
    · subst ha
      simp [mapInsert, List.count_cons, List.count_eq_zero_of_not_mem h.1]
    · simp [mapInsert, ha, List.count_cons, ih h.2]

/-- C8: registering the same name twice leaves exactly one entry under
that name, carrying the second registration's description, handler,
completer and validator; entries under other names are untouched.
(`registerCommand` is total — no duplicate error is ever produced.) -/
theorem register_overwrite {H C V : Type} (m : List (String × CommandInfo H C V))
    (name d1 d2 : String) (h1 h2 : H) (c1 c2 : Option C) (v1 v2 : Option V)
    (hnodup : (m.map Prod.fst).Nodup) :
    mapLookup (registerCommand (registerCommand m name d1 h1 c1 v1)
        name d2 h2 c2 v2) name = some ⟨d2, h2, c2, v2⟩ ∧
    ((registerCommand (registerCommand m name d1 h1 c1 v1)
        name d2 h2 c2 v2).map Prod.fst).count name = 1 ∧
    (∀ other, other ≠ name →
      mapLookup (registerCommand (registerCommand m name d1 h1 c1 v1)
          name d2 h2 c2 v2) other = mapLookup m other) := by
  refine ⟨mapInsert_lookup_self _ _ _, ?_, ?_⟩
  · exact mapInsert_count _ _ _ (mapInsert_keys_nodup _ _ _ hnodup)
  · intro other hother
    rw [registerCommand, mapInsert_lookup_other _ _ _ _ hother]
    exact mapInsert_lookup_other _ _ _ _ hother

/-- Witness for `register_overwrite`: two registrations of `set` on an
empty registry leave the second entry in place. -/
theorem register_overwrite_witness :
    mapLookup (registerCommand (registerCommand
        ([] : List (String × CommandInfo Nat Nat Nat))
        "set" "first" 1 none none) "set" "second" 2 none none) "set" =
      some ⟨"second", 2, none, none⟩ :=
  (register_overwrite [] "set" "first" "second" 1 2 none none none none
    (by simp)).1

/-- One observation of the cancel-monitoring loop in
`CLI::invokeCommand`: either `poll` returned without readable input
(`ret <= 0`, or `revents` without `POLLIN|POLLHUP`), or `read` returned
the given bytes — the empty list standing for `n == 0`, end-of-input. -/
inductive PollEvent where
  | timeout
  | input (bytes : List Nat)

/-- Outcome of the monitoring loop: `exited` models `std::_Exit(0)`,
`joined` the `worker.join()` path taken once `finished` is observed
true, `stillRunning` a trace that ends with the handler still going. -/
inductive SupervisorOutcome where
  | exited
  | joined
  | stillRunning
deriving DecidableEq

/-- The `while (!finished.load())` loop of `CLI::invokeCommand`, run
over an interleaving trace: each entry carries the value of `finished`
observed at the top of the iteration and the poll/read observation of
that iteration.  `read` bytes equal to `0x04` trigger the cancel exit,
as does end-of-input. -/
def superviseLoop : List (Bool × PollEvent) → SupervisorOutcome
  | [] => .stillRunning
  | (finished, ev) :: rest =>
    if finished then .joined
    else
      match ev with
      | .timeout => superviseLoop rest
      | .input bytes =>
        if bytes = [] then .exited
        else if bytes.contains 4 then .exited
        else superviseLoop rest

/-- An observation that triggers the fast exit: end-of-input, or a
freshly read buffer containing the `0x04` byte. -/
def isCancel : PollEvent → Bool
  | .timeout => false
  | .input bytes => bytes.isEmpty || bytes.contains 4

/-- C10: if every earlier iteration observed `finished = false` and no
cancel condition, then at the first iteration observing end-of-input or
a `0x04` byte while `finished` is still false, the loop exits the
process — regardless of anything later in the trace (`rest` is
universally quantified, so no later observation of the flag, and no
join, ever happens). -/
theorem superviseLoop_false_timeout (rest : List (Bool × PollEvent)) :
    superviseLoop ((false, PollEvent.timeout) :: rest) = superviseLoop rest :=
  rfl

theorem superviseLoop_false_input (bytes : List Nat)
    (rest : List (Bool × PollEvent)) :
    superviseLoop ((false, PollEvent.input bytes) :: rest) =
      if bytes = [] then .exited
      else if bytes.contains 4 then .exited
      else superviseLoop rest := by
  simp [superviseLoop]

theorem supervise_cancel_exits (pre rest : List (Bool × PollEvent))
    (ev : PollEvent)
    (hpre : ∀ p ∈ pre, p.1 = false ∧ isCancel p.2 = false)
    (hev : isCancel ev = true) :
    superviseLoop (pre ++ (false, ev) :: rest) = .exited := by
  induction pre with
  | nil =>
    rw [List.nil_append]
    cases ev with
    | timeout => simp [isCancel] at hev
    | input bytes =>
      rw [superviseLoop_false_input]
      by_cases hb : bytes = []
      · rw [if_pos hb]
      · rw [if_neg hb]
        have hc : bytes.contains 4 = true := by
          simp only [isCancel, Bool.or_eq_true, List.isEmpty_iff] at hev
          rcases hev with h | h
          · exact absurd h hb
          · exact h
        rw [if_pos hc]
  | cons p pre' ih =>
    obtain ⟨b, e⟩ := p
    obtain ⟨hb, he⟩ := hpre (b, e) (List.mem_cons_self _ _)
    simp only at hb he
    subst hb
    have ih' := ih (fun q hq => hpre q (List.mem_cons_of_mem _ hq))
    cases e with
    | timeout =>
      rw [List.cons_append, superviseLoop_false_timeout]
      exact ih'
    | input bytes =>
      simp only [isCancel, Bool.or_eq_false_iff] at he
      have hne : bytes ≠ [] := by
        intro hn
        rw [hn] at he
        simp at he
      rw [List.cons_append, superviseLoop_false_input, if_neg hne, he.2]
      simpa using ih'

/-- Witness for `supervise_cancel_exits`: after one quiet poll timeout,
a buffer containing `0x04` forces the exit even though the handler
would have finished later in the trace. -/
theorem supervise_cancel_exits_witness :
    superviseLoop ([(false, PollEvent.timeout)] ++
      (false, PollEvent.input [4]) :: [(true, PollEvent.timeout)]) =
      SupervisorOutcome.exited :=
  supervise_cancel_exits [(false, PollEvent.timeout)]
    [(true, PollEvent.timeout)] (PollEvent.input [4])
    (by intro p hp; simp at hp; simp [hp, isCancel]) (by rfl)

end CarlinkCLI
